import Mathlib

/-!
Verification of the retrieval-augmented chat core of the IA480 repository.

The sources embedded here are the two notebooks
`Exploring-Twitter-Data-with-Vector-Databases-and-RAG-Systems.ipynb`
(`clean_tweet`, `get_embedding`, `vector_search`, the embedding backfill
loop, `chatbot`, the interactive CLI loop) and `Collect_Twitter_Data.ipynb`
(the unique index on `tweet.id` and the two tweet-insert loops).

External services (OpenAI embeddings/completions, MongoDB) are modelled as
oracles: each call site receives the outcome (`Except`) the service would
produce, and the Python `try/except` structure of the source determines
which outcomes are caught and which propagate.
-/

namespace Rag

/-! ## Text sanitizer: `clean_tweet`

Python source (RAG notebook, cell 13):
```
def clean_tweet(text):
    url_pattern = r'http[s]?://(?:[a-zA-Z]|[0-9]|[$-_@.&+]|[!*\\(\\),]|(?:%[0-9a-fA-F][0-9a-fA-F]))+'
    return re.sub(url_pattern, '', text)
```
The character class of the repeated group is the union of
`[a-zA-Z]`, `[0-9]`, `[$-_@.&+]` (the codepoint range 0x24..0x5F, which
already contains the digits, the uppercase letters and `@.&+`),
`[!*\(\),]` (adding `!`; `*\(),` lie inside 0x24..0x5F), and `%hh`
(subsumed: `%` itself lies in 0x24..0x5F, and nothing follows the `+` in
the pattern, so the two-character alternative never changes the set of
strings matched).  Hence one character test suffices. -/
def isUrlChar (c : Char) : Bool :=
  (97 ≤ c.toNat && c.toNat ≤ 122) || (36 ≤ c.toNat && c.toNat ≤ 95) || c.toNat == 33

/-- `http://` as a character list. -/
def httpLit : List Char := [ 'h', 't', 't', 'p', ':', '/', '/']

/-- `https://` as a character list. -/
def httpsLit : List Char := [ 'h', 't', 't', 'p', 's', ':', '/', '/']

/-- Consume an exact literal prefix, returning the remainder. -/
def dropLit : List Char → List Char → Option (List Char)
  | [], l => some l
  | _ :: _, [] => none
  | p :: ps, c :: cs => if c = p then dropLit ps cs else none

/-- Consume `http://` or `https://` (the regex tries the greedy `[s]?`
with `s` first, so `https://` is preferred; the two literals are never
both prefixes of the same string). -/
def schemeSplit (l : List Char) : Option (List Char) :=
  match dropLit httpsLit l with
  | some r => some r
  | none => dropLit httpLit l

/-- One match attempt of `url_pattern` at the head of `l`: the scheme
literal followed by a greedy, nonempty run of `isUrlChar` characters.
Returns the remainder after the match.  Nothing follows the `+` in the
pattern, so the greedy run is exactly the maximal run and no backtracking
can occur. -/
def matchUrlAt (l : List Char) : Option (List Char) :=
  match schemeSplit l with
  | none => none
  | some rest =>
    match rest with
    | [] => none
    | c :: cs => if isUrlChar c then some (cs.dropWhile isUrlChar) else none

theorem dropLit_some {ps l r : List Char} (h : dropLit ps l = some r) : l = ps ++ r := by
  induction ps generalizing l with
  | nil => simpa [dropLit] using h
  | cons p ps ih =>
    cases l with
    | nil => simp [dropLit] at h
    | cons c cs =>
      by_cases hc : c = p
      · subst hc
        simp only [dropLit, if_pos rfl] at h
        simpa using ih h
      · simp [dropLit, hc] at h

theorem schemeSplit_some {l r : List Char} (h : schemeSplit l = some r) :
    l = httpLit ++ r ∨ l = httpsLit ++ r := by
  unfold schemeSplit at h
  cases hs : dropLit httpsLit l with
  | some r2 =>
    rw [hs] at h
    exact Or.inr (by simpa [← Option.some_inj.mp h] using dropLit_some hs)
  | none =>
    rw [hs] at h
    exact Or.inl (dropLit_some h)

theorem dropLit_self (ps l : List Char) : dropLit ps (ps ++ l) = some l := by
  induction ps with
  | nil => simp [dropLit]
  | cons p ps ih => simp [dropLit, ih]

theorem schemeSplit_http (l : List Char) : schemeSplit (httpLit ++ l) = some l := by
  unfold schemeSplit
  have h1 : dropLit httpsLit (httpLit ++ l) = none := by
    simp [httpsLit, httpLit, dropLit]
  rw [h1]
  exact dropLit_self _ _

theorem schemeSplit_https (l : List Char) : schemeSplit (httpsLit ++ l) = some l := by
  unfold schemeSplit
  rw [dropLit_self]

theorem matchUrlAt_length {l rem : List Char} (h : matchUrlAt l = some rem) :
    rem.length < l.length := by
  unfold matchUrlAt at h
  cases hs : schemeSplit l with
  | none => rw [hs] at h; exact absurd h (by simp)
  | some rest =>
    rw [hs] at h
    cases rest with
    | nil => exact absurd h (by simp)
    | cons c cs =>
      by_cases hc : isUrlChar c
      · simp only [if_pos hc, Option.some_inj] at h
        subst h
        have hlen : (cs.dropWhile isUrlChar).length ≤ cs.length :=
          (List.dropWhile_sublist _).length_le
        have hrest : (c :: cs).length ≤ l.length := by
          rcases schemeSplit_some hs with he | he <;> simp [he, httpLit, httpsLit]
        simp only [List.length_cons] at hrest
        omega
      · simp [hc] at h

/-- The scan of `re.sub(url_pattern, '', text)`: at each position try a
match; on success drop the matched characters and continue after them; on
failure keep the character and move one position right. -/
def cleanAux : List Char → List Char
  | [] => []
  | c :: rest =>
    match h : matchUrlAt (c :: rest) with
    | some rem => cleanAux rem
    | none => c :: cleanAux rest
termination_by l => l.length
decreasing_by
  · exact matchUrlAt_length h
  · simp

/-- `clean_tweet` from the RAG notebook. -/
def clean_tweet (s : String) : String := String.mk (cleanAux s.data)

theorem cleanAux_cons_some {c : Char} {rest rem : List Char}
    (h : matchUrlAt (c :: rest) = some rem) : cleanAux (c :: rest) = cleanAux rem := by
  conv_lhs => rw [cleanAux.eq_def]
  dsimp only
  split
  · next rem2 hm => rw [h] at hm; cases hm; rfl
  · next hm => rw [h] at hm; cases hm

theorem cleanAux_cons_none {c : Char} {rest : List Char}
    (h : matchUrlAt (c :: rest) = none) : cleanAux (c :: rest) = c :: cleanAux rest := by
  conv_lhs => rw [cleanAux.eq_def]
  dsimp only
  split
  · next rem2 hm => rw [h] at hm; cases hm
  · rfl

/-- Shape of a successful match: scheme literal, a nonempty greedy run of
URL characters, and a remainder that is empty or starts with a non-URL
character. -/
theorem matchUrlAt_some_shape {l rem : List Char} (h : matchUrlAt l = some rem) :
    ∃ scheme c run, (scheme = httpLit ∨ scheme = httpsLit) ∧
      l = scheme ++ c :: (run ++ rem) ∧ isUrlChar c = true ∧
      (∀ x ∈ run, isUrlChar x = true) ∧
      (rem = [] ∨ ∃ d ds, rem = d :: ds ∧ isUrlChar d = false) := by
  unfold matchUrlAt at h
  cases hs : schemeSplit l with
  | none => rw [hs] at h; cases h
  | some rest =>
    rw [hs] at h
    cases rest with
    | nil => cases h
    | cons c cs =>
      by_cases hc : isUrlChar c
      · simp only [if_pos hc, Option.some_inj] at h
        have hsplit : cs.takeWhile isUrlChar ++ rem = cs := by
          rw [← h]; exact List.takeWhile_append_dropWhile isUrlChar cs
        have hrun : ∀ x ∈ cs.takeWhile isUrlChar, isUrlChar x = true :=
          fun x hx => List.mem_takeWhile_imp hx
        have hrem : rem = [] ∨ ∃ d ds, rem = d :: ds ∧ isUrlChar d = false := by
          cases hr : rem with
          | nil => exact Or.inl rfl
          | cons d ds =>
            have hne : cs.dropWhile isUrlChar ≠ [] := by
              rw [h, hr]; exact List.cons_ne_nil d ds
            have hd := List.head_dropWhile_not isUrlChar cs hne
            have hhead : (cs.dropWhile isUrlChar).head hne = d := by
              have := h.trans hr
              simp [this]
            rw [hhead] at hd
            exact Or.inr ⟨d, ds, rfl, hd⟩
        rcases schemeSplit_some hs with he | he
        · exact ⟨httpLit, c, cs.takeWhile isUrlChar, Or.inl rfl,
            by rw [he, hsplit], hc, hrun, hrem⟩
        · exact ⟨httpsLit, c, cs.takeWhile isUrlChar, Or.inr rfl,
            by rw [he, hsplit], hc, hrun, hrem⟩
      · simp [hc] at h

theorem cleanAux_nil : cleanAux [] = [] := by
  conv_lhs => rw [cleanAux.eq_def]

theorem matchUrlAt_nil : matchUrlAt [] = none := rfl

theorem scheme_all_urlChar {scheme : List Char} (hs : scheme = httpLit ∨ scheme = httpsLit) :
    ∀ x ∈ scheme, isUrlChar x = true := by
  rcases hs with h | h <;> subst h <;> decide

theorem matchUrlAt_isSome_of {scheme : List Char} {c : Char} (rest : List Char)
    (hs : scheme = httpLit ∨ scheme = httpsLit) (hc : isUrlChar c = true) :
    (matchUrlAt (scheme ++ c :: rest)).isSome = true := by
  rcases hs with h | h <;> subst h <;>
    simp [matchUrlAt, schemeSplit_http, schemeSplit_https, hc]

/-- If a match succeeds on `xs ++ post` where `post` is empty or starts
with a non-URL character, the whole match lies inside `xs`, so a match
also succeeds on `xs ++ post'` for any `post'`. -/
theorem matchUrlAt_transfer {xs post : List Char}
    (hsome : (matchUrlAt (xs ++ post)).isSome = true)
    (hpost : post = [] ∨ ∃ d ds, post = d :: ds ∧ isUrlChar d = false) :
    ∀ post', (matchUrlAt (xs ++ post')).isSome = true := by
  intro post'
  obtain ⟨rem, hm⟩ := Option.isSome_iff_exists.mp hsome
  obtain ⟨scheme, c, run, hsch, heq, hc, _hrun, _hrem⟩ := matchUrlAt_some_shape hm
  have hprefl : (scheme ++ [c]) <+: (xs ++ post) :=
    ⟨run ++ rem, by rw [heq]; simp⟩
  have hprefx : xs <+: (xs ++ post) := ⟨post, rfl⟩
  rcases List.prefix_or_prefix_of_prefix hprefl hprefx with hp | hp
  · obtain ⟨t, ht⟩ := hp
    have hx : xs ++ post' = scheme ++ c :: (t ++ post') := by rw [← ht]; simp
    rw [hx]
    exact matchUrlAt_isSome_of _ hsch hc
  · obtain ⟨t, ht⟩ := hp
    cases t with
    | nil =>
      have hx : xs = scheme ++ [c] := by simpa using ht
      have hx2 : xs ++ post' = scheme ++ c :: post' := by rw [hx]; simp
      rw [hx2]
      exact matchUrlAt_isSome_of _ hsch hc
    | cons d2 t2 =>
      exfalso
      have hbig : xs ++ post = xs ++ d2 :: (t2 ++ (run ++ rem)) := by
        rw [heq]
        calc scheme ++ c :: (run ++ rem)
            = (scheme ++ [c]) ++ (run ++ rem) := by simp
          _ = (xs ++ d2 :: t2) ++ (run ++ rem) := by rw [ht]
          _ = xs ++ d2 :: (t2 ++ (run ++ rem)) := by simp
      have hpeq : post = d2 :: (t2 ++ (run ++ rem)) := List.append_cancel_left hbig
      rcases hpost with h0 | ⟨d, ds, hds, hdf⟩
      · rw [h0] at hpeq; cases hpeq
      · rw [hds] at hpeq
        injection hpeq with h1 _
        have hdmem : d2 ∈ scheme ++ [c] := by rw [← ht]; simp
        have hdt : isUrlChar d2 = true := by
          rcases List.mem_append.mp hdmem with hm2 | hm2
          · exact scheme_all_urlChar hsch _ hm2
          · simp only [List.mem_singleton] at hm2; rw [hm2]; exact hc
        rw [← h1, hdf] at hdt
        cases hdt

/-- Removing matches never creates a new match across the junction: if no
match starts at the junction point of `pre ++ l`, none starts there after
`l` is cleaned. -/
theorem cleanAux_no_new_match :
    ∀ (l pre : List Char), matchUrlAt (pre ++ l) = none →
      matchUrlAt (pre ++ cleanAux l) = none
  | [], pre, h => by rw [cleanAux_nil]; exact h
  | c :: rest, pre, h => by
    cases hm : matchUrlAt (c :: rest) with
    | some rem =>
      rw [cleanAux_cons_some hm]
      have hpr : matchUrlAt (pre ++ rem) = none := by
        by_contra hcon
        have hsome : (matchUrlAt (pre ++ rem)).isSome = true :=
          Option.isSome_iff_ne_none.mpr hcon
        obtain ⟨_, _, _, _, _, _, _, hrem⟩ := matchUrlAt_some_shape hm
        have htr := matchUrlAt_transfer hsome hrem (c :: rest)
        rw [h] at htr
        cases htr
      exact cleanAux_no_new_match rem pre hpr
    | none =>
      rw [cleanAux_cons_none hm]
      have hx : pre ++ c :: cleanAux rest = (pre ++ [c]) ++ cleanAux rest := by simp
      rw [hx]
      have h2 : matchUrlAt ((pre ++ [c]) ++ rest) = none := by simpa using h
      exact cleanAux_no_new_match rest (pre ++ [c]) h2
termination_by l => l.length
decreasing_by
  all_goals first
    | exact matchUrlAt_length hm
    | simp

/-- No suffix of the cleaned output begins with a URL match. -/
theorem cleanAux_noUrl :
    ∀ (l xs ys : List Char), cleanAux l = xs ++ ys → matchUrlAt ys = none
  | [], xs, ys, h => by
    rw [cleanAux_nil] at h
    rcases List.append_eq_nil.mp h.symm with ⟨_, hy⟩
    rw [hy]; exact matchUrlAt_nil
  | c :: rest, xs, ys, h => by
    cases hm : matchUrlAt (c :: rest) with
    | some rem =>
      rw [cleanAux_cons_some hm] at h
      exact cleanAux_noUrl rem xs ys h
    | none =>
      rw [cleanAux_cons_none hm] at h
      cases xs with
      | nil =>
        simp only [List.nil_append] at h
        rw [← h]
        have := cleanAux_no_new_match rest [c] (by simpa using hm)
        simpa using this
      | cons x xs2 =>
        injection h with _ h2
        exact cleanAux_noUrl rest xs2 ys h2
termination_by l => l.length
decreasing_by
  all_goals first
    | exact matchUrlAt_length hm
    | simp

/-- A URL-shaped string, exactly as `url_pattern` describes it: a scheme
literal followed by a nonempty run of URL characters. -/
def IsUrlShaped (u : List Char) : Prop :=
  ∃ scheme c run, (scheme = httpLit ∨ scheme = httpsLit) ∧
    u = scheme ++ c :: run ∧ isUrlChar c = true ∧ ∀ x ∈ run, isUrlChar x = true

/-- Rebuild a text from the gap segments between matches and the matched
segments: `g0 ++ u1 ++ g1 ++ u2 ++ ... ++ un ++ gn`. -/
def interleave : List (List Char) → List (List Char) → List Char
  | [], _ => []
  | g :: _, [] => g
  | g :: gs, u :: us => g ++ u ++ interleave gs us

theorem interleave_cons_head (c : Char) (g : List Char) (gs : List (List Char))
    (us : List (List Char)) :
    interleave ((c :: g) :: gs) us = c :: interleave (g :: gs) us := by
  cases us with
  | nil => rfl
  | cons u us2 => simp [interleave]

/-- `re.sub` semantics: the input splits into alternating unmatched gaps
and URL-shaped matches, and the output is the concatenation of the gaps. -/
theorem cleanAux_decomp :
    ∀ l : List Char, ∃ gaps urls, gaps.length = urls.length + 1 ∧
      l = interleave gaps urls ∧ cleanAux l = gaps.flatten ∧
      ∀ u ∈ urls, IsUrlShaped u
  | [] => ⟨[[]], [], rfl, rfl, by rw [cleanAux_nil]; rfl, by intro u hu; cases hu⟩
  | c :: rest => by
    cases hm : matchUrlAt (c :: rest) with
    | some rem =>
      obtain ⟨gaps, urls, hlen, hint, hout, hsh⟩ := cleanAux_decomp rem
      obtain ⟨scheme, ch, run, hsch, heq, hc, hrun, _⟩ := matchUrlAt_some_shape hm
      refine ⟨[] :: gaps, (scheme ++ ch :: run) :: urls, by simp [hlen], ?_, ?_, ?_⟩
      · cases gaps with
        | nil => cases hlen
        | cons g gs =>
          show c :: rest = [] ++ (scheme ++ ch :: run) ++ interleave (g :: gs) urls
          rw [← hint, heq]
          simp
      · rw [cleanAux_cons_some hm, hout]
        simp
      · intro u hu
        rcases List.mem_cons.mp hu with h1 | h1
        · exact h1 ▸ ⟨scheme, ch, run, hsch, rfl, hc, hrun⟩
        · exact hsh u h1
    | none =>
      obtain ⟨gaps, urls, hlen, hint, hout, hsh⟩ := cleanAux_decomp rest
      cases gaps with
      | nil => cases hlen
      | cons g gs =>
        refine ⟨(c :: g) :: gs, urls, by simpa using hlen, ?_, ?_, hsh⟩
        · rw [interleave_cons_head, ← hint]
        · rw [cleanAux_cons_none hm, hout]
          simp
termination_by l => l.length
decreasing_by
  all_goals first
    | exact matchUrlAt_length hm
    | simp

/-- If no suffix of the input starts a match, cleaning is the identity. -/
theorem cleanAux_id :
    ∀ l : List Char, (∀ xs ys : List Char, l = xs ++ ys → matchUrlAt ys = none) →
      cleanAux l = l
  | [], _ => cleanAux_nil
  | c :: rest, h => by
    have hm : matchUrlAt (c :: rest) = none := h [] (c :: rest) rfl
    rw [cleanAux_cons_none hm]
    have := cleanAux_id rest (fun xs ys hxy => h (c :: xs) ys (by rw [hxy]; rfl))
    rw [this]
termination_by l => l.length
decreasing_by
  simp

/-- Decidable check that a character list contains no URL-shaped
substring (no suffix begins with a match of `url_pattern`). -/
def noUrlIn (l : List Char) : Bool :=
  l.tails.all fun t => (matchUrlAt t).isNone

theorem noUrlIn_iff (l : List Char) :
    noUrlIn l = true ↔ ∀ xs ys : List Char, l = xs ++ ys → matchUrlAt ys = none := by
  constructor
  · intro h xs ys hxy
    have hmem : ys ∈ l.tails := (List.mem_tails ys l).mpr ⟨xs, hxy.symm⟩
    have := (List.all_eq_true.mp h) ys hmem
    exact Option.isNone_iff_eq_none.mp this
  · intro h
    refine List.all_eq_true.mpr fun t ht => ?_
    obtain ⟨xs, hxs⟩ := (List.mem_tails t l).mp ht
    exact Option.isNone_iff_eq_none.mpr (h xs t hxs.symm)

/-! ## Embeddings and vector search (`get_embedding`, `vector_search`) -/

/-- Embedding vectors are opaque payloads for this core: produced by the
external provider and passed through to the external index, with no local
arithmetic.  Modelled as integer lists. -/
abbrev Emb := List Int

/-- `get_embedding` (RAG notebook, cell 14):
```
def get_embedding(text):
    try:
        embedding = client.embeddings.create(input=text, model=embedding_model).data[0].embedding
        return embedding
    except Exception as e:
        print(f"Error in get_embedding: \x7be\x7d")
        return None
```
The provider oracle maps the input text to the outcome of the external
API call; every exception is caught and turned into `none`. -/
def get_embedding (provider : String → Except String Emb) (text : String) : Option Emb :=
  match provider text with
  | Except.ok e => some e
  | Except.error _ => none

/-- Insert into a list kept in descending score order. -/
def insertDesc (x : String × Int) : List (String × Int) → List (String × Int)
  | [] => [x]
  | y :: ys => if y.2 ≤ x.2 then x :: y :: ys else y :: insertDesc x ys

/-- Sort scored documents by descending score. -/
def sortDesc : List (String × Int) → List (String × Int)
  | [] => []
  | x :: xs => insertDesc x (sortDesc xs)

/-- Modelled from the spec: the external `$vectorSearch` stage of the
aggregate pipeline is not repository code (it runs inside MongoDB Atlas).
Per the spec's Vector Index contract — `query(vector, candidates, limit)
-> ordered list of (metadata, score)` — the index holds scored candidates
for the query vector (the cosine-similarity computation is external, so
the scored list is the stage's input here), considers `numCandidates` of
them and returns the `limit` highest-scoring ones in descending score
order.  Scores are opaque to the core and modelled as integers. -/
def vectorSearchStage (scored : List (String × Int)) (numCandidates limit : Nat) :
    List (String × Int) :=
  ((sortDesc scored).take numCandidates).take limit

/-- The `$project` stage of the pipeline: keep only `tweet.text` for each
result document (`_id` excluded, no score surfaced). -/
def projectStage (l : List (String × Int)) : List String :=
  l.map Prod.fst

/-- `numCandidates` as hard-coded in the pipeline of `vector_search`. -/
def numCandidatesConst : Nat := 1000

/-- `limit` as hard-coded in the pipeline of `vector_search`. -/
def limitConst : Nat := 10

/-- The union return type of `vector_search`: the Python function returns
either the error string `"Invalid query or embedding generation failed."`
or the list of projected result documents. -/
inductive SearchRet where
  | errMsg (s : String)
  | docs (l : List String)
deriving DecidableEq

/-- The sentinel string `vector_search` returns when embedding failed. -/
def invalidQueryMsg : String := "Invalid query or embedding generation failed."

/-- `vector_search` (RAG notebook, cell 15):
```
def vector_search(query):
    query_embedding = get_embedding(query)
    if query_embedding is None:
        return "Invalid query or embedding generation failed."
    pipeline = [ \x7b"$vectorSearch": \x7b"index": "tweet_vector",
        "queryVector": query_embedding, "path": "tweet.embedding",
        "numCandidates": 1000, "limit": 10\x7d\x7d,
      \x7b"$project": \x7b"_id": 0, "tweet.text": 1\x7d\x7d ]
    results = tweet_collection.aggregate(pipeline)
    return list(results)
```
The query string is embedded raw (no `clean_tweet`).  The aggregate call
is not wrapped in any `try`, so an exception from the database (e.g. the
vector index unavailable) propagates to the caller.  `db` is the oracle
for the database's side of the aggregate call. -/
def vector_search (provider : String → Except String Emb)
    (db : Emb → Except String (List (String × Int))) (query : String) :
    Except String SearchRet :=
  match get_embedding provider query with
  | none => Except.ok (SearchRet.errMsg invalidQueryMsg)
  | some qe =>
    match db qe with
    | Except.error e => Except.error e
    | Except.ok scored =>
        Except.ok (SearchRet.docs
          (projectStage (vectorSearchStage scored numCandidatesConst limitConst)))

/-! ## Conversation state and the chat orchestrator (`chatbot`) -/

/-- One entry of the `chat_history` list: a role-tagged message dict. -/
structure Msg where
  role : String
  content : String
deriving DecidableEq

/-- The initial system-instruction turn seeded into `chat_history`. -/
def systemInit : Msg :=
  ⟨"system", "you are a chabot answer user questions based on the returned tweets"⟩

/-- `delimiter = '###'` from the RAG notebook. -/
def delimiter : String := "###"

/-- The user turn appended by `chatbot`. -/
def mkUser (p : String) : Msg := ⟨"user", p⟩

/-- Python's rendering of the `vector_search` result list inside the
f-string: the list of projected documents, each printed as
`\x7b'tweet': \x7b'text': ...\x7d\x7d` (quote-escaping inside tweet texts
is abstracted; no claim depends on it). -/
def pyReprDocs (l : List String) : String :=
  "[" ++ String.intercalate ", "
    (l.map fun t => "\x7b\x27tweet\x27: \x7b\x27text\x27: \x27" ++ t ++ "\x27\x7d\x7d") ++ "]"

/-- What lands in the f-string slot `\x7btweets\x7d`: the sentinel error
string or the rendered document list. -/
def serializeSearch : SearchRet → String
  | SearchRet.errMsg s => s
  | SearchRet.docs l => pyReprDocs l

/-- The retrieved-context turn appended by `chatbot`: role `system`,
content `f"here the returned tweets delimitered by \x7bdelimiter\x7d\x7btweets\x7d\x7bdelimiter\x7d"`. -/
def mkCtx (t : String) : Msg :=
  ⟨"system", "here the returned tweets delimitered by " ++ delimiter ++ t ++ delimiter⟩

/-- The assistant-reply turn appended by `chatbot`. -/
def mkAssistant (r : String) : Msg := ⟨"assistant", r⟩

/-- Oracle outcomes of the external calls one `chatbot` invocation can
issue: the embedding provider, the database's side of the aggregate call,
and the chat completion. -/
structure CallEnv where
  provider : String → Except String Emb
  db : Emb → Except String (List (String × Int))
  complete : Except String String

/-- `chatbot` (RAG notebook, cell 22):
```
def chatbot(prompt):
    chat_history.append(\x7b"role": "user", "content": prompt\x7d)
    tweets = vector_search(prompt)
    chat_history.append(\x7b"role": "system", "content": f"here the returned tweets delimitered by \x7bdelimiter\x7d\x7btweets\x7d\x7bdelimiter\x7d"\x7d)
    response = client.chat.completions.create(model=chat_model, messages=chat_history)
    reply = response.choices[0].message.content
    chat_history.append(\x7b"role": "assistant", "content": reply\x7d)
    return reply
```
No `try` anywhere: an exception raised by `vector_search` or by the
completion call propagates, leaving the turns appended so far in
`chat_history`.  Returns the final history plus the outcome. -/
def chatbot (env : CallEnv) (hist : List Msg) (prompt : String) :
    List Msg × Except String String :=
  let h1 := hist ++ [mkUser prompt]
  match vector_search env.provider env.db prompt with
  | Except.error e => (h1, Except.error e)
  | Except.ok sr =>
    let h2 := h1 ++ [mkCtx (serializeSearch sr)]
    match env.complete with
    | Except.error e => (h2, Except.error e)
    | Except.ok reply => (h2 ++ [mkAssistant reply], Except.ok reply)

/-- A sequence of `chatbot` invocations against the same module-level
`chat_history` (each invocation may succeed or raise; the history
mutations made before a raise persist, and per the spec the caller may
keep calling `ask` afterwards). -/
def runCalls : List (CallEnv × String) → List Msg → List Msg
  | [], h => h
  | (env, p) :: rest, h => runCalls rest (chatbot env h p).1

/-! ## The interactive CLI loop -/

/-- ASCII lowercasing of one character (what Python's `str.lower()` does
on the ASCII input relevant to the sentinel comparison). -/
def lowerChar (c : Char) : Char :=
  if 'A' ≤ c && c ≤ 'Z' then Char.ofNat (c.toNat + 32) else c

/-- `user_input.lower()` restricted to ASCII. -/
def strLower (s : String) : String := String.mk (s.data.map lowerChar)

/-- The fixed goodbye line printed by the loop. -/
def goodbyeMsg : String := "Chatbot: Goodbye!"

/-- The CLI loop (RAG notebook, cell 23):
```
while True:
    user_input = input("You: ")
    if user_input.lower() in ['exit', 'quit']:
        print("Chatbot: Goodbye!")
        break
    reply = chatbot(user_input)
    print(f"Chatbot: \x7breply\x7d")
```
Modelled over a finite list of input lines, each carrying the oracle
outcomes its `chatbot` call would see.  Returns the printed lines and the
final history; an exception from `chatbot` ends the run (the loop body
does not catch it). -/
def runCLI : List (String × CallEnv) → List Msg → List String × List Msg
  | [], h => ([], h)
  | (line, env) :: rest, h =>
    if strLower line == "exit" || strLower line == "quit" then ([goodbyeMsg], h)
    else
      match chatbot env h line with
      | (h2, Except.error _) => ([], h2)
      | (h2, Except.ok reply) =>
        let r := runCLI rest h2
        (("Chatbot: " ++ reply) :: r.1, r.2)

/-! ## Spec-level conversation predicates

The spec's four-role enumeration maps onto the code's role strings as
follows: `system-instruction` is the seeded `systemInit` turn,
`user-input` is role `user`, `assistant-reply` is role `assistant`, and
`retrieved-context` is the other kind of role-`system` turn appended by
`chatbot` (distinguishable from `systemInit` by its content). -/

/-- A retrieved-context turn: role `system` but not the seeded
system-instruction message. -/
def isCtxTurn (m : Msg) : Bool := m.role == "system" && !(m == systemInit)

/-- The history begins with the system-instruction turn and contains it
exactly once. -/
def beginsOneSystem : List Msg → Bool
  | [] => false
  | m :: rest => m == systemInit && rest.all fun x => !(x == systemInit)

/-- The roles of the user/assistant turns, in order. -/
def uaRoles (h : List Msg) : List String :=
  (h.filter fun m => m.role == "user" || m.role == "assistant").map Msg.role

/-- No two adjacent entries equal, continuing from `prev`. -/
def altFrom (prev : String) : List String → Bool
  | [] => true
  | r :: rest => !(r == prev) && altFrom r rest

/-- User and assistant turns strictly alternate, starting with a user
turn. -/
def alternatesUA (h : List Msg) : Bool :=
  match uaRoles h with
  | [] => true
  | r :: rest => r == "user" && altFrom r rest

/-- Scan for retrieved-context turns, checking each sits immediately
after a user turn and immediately before an assistant turn; `prev` is the
preceding message. -/
def ctxPlacedFrom (prev : Msg) : List Msg → Bool
  | [] => true
  | m :: rest =>
    (if isCtxTurn m then
      prev.role == "user" &&
        (match rest with
         | a :: _ => a.role == "assistant"
         | [] => false)
     else true)
    && ctxPlacedFrom m rest

/-- Every retrieved-context turn appears immediately after a user turn
and immediately before the corresponding assistant turn (a context turn
at position 0 has no preceding user turn and fails the check). -/
def ctxPlaced : List Msg → Bool
  | [] => true
  | m :: rest => !(isCtxTurn m) && ctxPlacedFrom m rest

/-! ## Tweet collection (`Collect_Twitter_Data.ipynb`) -/

/-- A tweet payload: its `id` (the unique key) plus its other fields,
opaque to the insert logic. -/
structure Tweet where
  id : Int
  payload : String
deriving DecidableEq

/-- A user object from the API response's `includes`. -/
structure TUser where
  uid : Int
  upayload : String
deriving DecidableEq

/-- One document of `tweet_collection`:
`tweet_json = \x7b'tweet': tweet.data, 'user': user.data\x7d`. -/
structure StoredDoc where
  tweet : Tweet
  user : TUser
deriving DecidableEq

/-- Modelled from the spec: MongoDB's unique-index semantics are not
repository code.  The notebook runs
`tweet_collection.create_index([("tweet.id", pymongo.ASCENDING)], unique=True)`,
and per the spec uniqueness on `tweet.id` is enforced by the collection:
`insert_one` raises a duplicate-key error precisely when a document with
the same `tweet.id` is already stored, and otherwise appends the
document. -/
def insertOne (coll : List StoredDoc) (d : StoredDoc) : Except String (List StoredDoc) :=
  if coll.any fun x => x.tweet.id == d.tweet.id then Except.error "duplicate key"
  else Except.ok (coll ++ [d])

/-- The insert loop body shared by both collection cells:
```
for user, tweet in zip(tweets.includes['users'], tweets.data):
    tweet_json = \x7b\x7d
    tweet_json['tweet'] = tweet.data
    tweet_json['user'] = user.data
    try:
        tweet_collection.insert_one(tweet_json)
        print(tweet_json['tweet']['created_at'])
    except:
        pass
```
A failed insert is swallowed and the loop continues with the next item. -/
def ingest (coll : List StoredDoc) : List StoredDoc → List StoredDoc
  | [] => coll
  | d :: ds =>
    match insertOne coll d with
    | Except.ok c2 => ingest c2 ds
    | Except.error _ => ingest coll ds

/-- `tweet_json` built from one `(user, tweet)` pair of the `zip`. -/
def mkDoc (u : TUser) (t : Tweet) : StoredDoc := ⟨t, u⟩

/-- The documents one page's loop attempts to insert: the positional
pairing `zip(tweets.includes['users'], tweets.data)`. -/
def attemptedDocs (users : List TUser) (tweets : List Tweet) : List StoredDoc :=
  (users.zip tweets).map fun p => mkDoc p.1 p.2

/-- One page of the tweet-insert loop. -/
def ingestPage (coll : List StoredDoc) (users : List TUser) (tweets : List Tweet) :
    List StoredDoc :=
  ingest coll (attemptedDocs users tweets)

/-- Number of stored documents whose `tweet.id` equals `i`. -/
def countId (i : Int) (coll : List StoredDoc) : Nat :=
  (coll.filter fun d => d.tweet.id == i).length

/-! ## Embedding backfill (RAG notebook, cell 17) -/

/-- A document as seen by the backfill loop: `tweet.id`, `tweet.text`,
and the `tweet.embedding` field (`none` while the field is absent; the
value written is itself an `Option` because `get_embedding` can return
`None`, which the loop stores as-is). -/
structure EDoc where
  id : Int
  text : String
  embedding : Option (Option Emb)
deriving DecidableEq

/-- `update_one(\x7b'tweet.id': id\x7d, \x7b"$set": \x7b'tweet.embedding': v\x7d\x7d)`:
set the embedding field of the first document matching the id. -/
def updateEmbedding (i : Int) (v : Option Emb) : List EDoc → List EDoc
  | [] => []
  | d :: ds =>
    if d.id == i then { d with embedding := some v } :: ds
    else d :: updateEmbedding i v ds

/-- The backfill loop:
```
tweets = tweet_collection.find()
for tweet in tqdm(list(tweets)):
    try:
        tweet_embedding = get_embedding(clean_tweet(tweet['tweet']['text']))
        tweet_collection.update_one(
            \x7b'tweet.id': tweet['tweet']['id']\x7d,
            \x7b"$set": \x7b'tweet.embedding': tweet_embedding\x7d\x7d)
    except:
        pass
```
It walks a snapshot of the collection and writes, for each snapshot
document, the embedding of the *sanitized* text (`clean_tweet` applied)
under that document's id.  `get_embedding` already swallows its own
failures, so the loop's `except` only guards the external write, which
the model takes as succeeding. -/
def backfill (provider : String → Except String Emb) :
    List EDoc → List EDoc → List EDoc
  | [], coll => coll
  | d :: ds, coll =>
      backfill provider ds
        (updateEmbedding d.id (get_embedding provider (clean_tweet d.text)) coll)

/-! ## Lemmas about messages and `chatbot` runs -/

theorem mkUser_ne_init (p : String) : mkUser p ≠ systemInit := by
  intro h
  have hr := congrArg Msg.role h
  rw [show (mkUser p).role = "user" from rfl,
    show systemInit.role = "system" from rfl] at hr
  exact absurd hr (by decide)

theorem mkAssistant_ne_init (r : String) : mkAssistant r ≠ systemInit := by
  intro h
  have hr := congrArg Msg.role h
  rw [show (mkAssistant r).role = "assistant" from rfl,
    show systemInit.role = "system" from rfl] at hr
  exact absurd hr (by decide)

theorem mkCtx_ne_init (t : String) : mkCtx t ≠ systemInit := by
  intro h
  have hd := congrArg (fun m => m.content.data) h
  show False
  simp only at hd
  rw [show (mkCtx t).content =
    "here the returned tweets delimitered by " ++ delimiter ++ t ++ delimiter from rfl] at hd
  rw [show systemInit.content =
    "you are a chabot answer user questions based on the returned tweets" from rfl] at hd
  rw [String.data_append, String.data_append, String.data_append] at hd
  rw [show "here the returned tweets delimitered by ".data =
    'h' :: "ere the returned tweets delimitered by ".data from by decide] at hd
  rw [show "you are a chabot answer user questions based on the returned tweets".data =
    'y' :: "ou are a chabot answer user questions based on the returned tweets".data
    from by decide] at hd
  simp only [List.cons_append, List.append_assoc] at hd
  injection hd with h1 _
  exact absurd h1 (by decide)

theorem mkUser_beq_init (p : String) : (mkUser p == systemInit) = false :=
  beq_eq_false_iff_ne.mpr (mkUser_ne_init p)

theorem mkAssistant_beq_init (r : String) : (mkAssistant r == systemInit) = false :=
  beq_eq_false_iff_ne.mpr (mkAssistant_ne_init r)

theorem mkCtx_beq_init (t : String) : (mkCtx t == systemInit) = false :=
  beq_eq_false_iff_ne.mpr (mkCtx_ne_init t)

theorem isCtxTurn_user (p : String) : isCtxTurn (mkUser p) = false := by
  show ("user" == "system" && !(mkUser p == systemInit)) = false
  rw [show ("user" == "system") = false from by decide, Bool.false_and]

theorem isCtxTurn_assistant (r : String) : isCtxTurn (mkAssistant r) = false := by
  show ("assistant" == "system" && !(mkAssistant r == systemInit)) = false
  rw [show ("assistant" == "system") = false from by decide, Bool.false_and]

theorem isCtxTurn_ctx (t : String) : isCtxTurn (mkCtx t) = true := by
  show ("system" == "system" && !(mkCtx t == systemInit)) = true
  rw [show ("system" == "system") = true from by decide, mkCtx_beq_init, Bool.true_and]
  rfl

theorem isCtxTurn_init : isCtxTurn systemInit = false := by decide

/-- A successful `chatbot` call. -/
theorem chatbot_ok {env : CallEnv} {p : String} {sr : SearchRet} {r : String}
    (hist : List Msg)
    (h1 : vector_search env.provider env.db p = Except.ok sr)
    (h2 : env.complete = Except.ok r) :
    chatbot env hist p =
      (hist ++ [mkUser p, mkCtx (serializeSearch sr), mkAssistant r], Except.ok r) := by
  simp [chatbot, h1, h2]

/-- `chatbot` when the completion call raises: the user and context turns
stay appended, the exception propagates. -/
theorem chatbot_complete_fail {env : CallEnv} {p : String} {sr : SearchRet} {e : String}
    (hist : List Msg)
    (h1 : vector_search env.provider env.db p = Except.ok sr)
    (h2 : env.complete = Except.error e) :
    chatbot env hist p =
      (hist ++ [mkUser p, mkCtx (serializeSearch sr)], Except.error e) := by
  simp [chatbot, h1, h2]

/-- `chatbot` when `vector_search` raises: only the user turn was
appended, the exception propagates, no context turn is added. -/
theorem chatbot_search_fail {env : CallEnv} {p e : String} (hist : List Msg)
    (h1 : vector_search env.provider env.db p = Except.error e) :
    chatbot env hist p = (hist ++ [mkUser p], Except.error e) := by
  simp [chatbot, h1]

/-- Whatever happens, a `chatbot` call only appends turns. -/
theorem chatbot_hist_append (env : CallEnv) (hist : List Msg) (p : String) :
    ∃ d, (chatbot env hist p).1 = hist ++ d := by
  unfold chatbot
  cases vector_search env.provider env.db p with
  | error e => exact ⟨[mkUser p], rfl⟩
  | ok sr =>
    cases env.complete with
    | error e => exact ⟨[mkUser p, mkCtx (serializeSearch sr)], by simp⟩
    | ok r => exact ⟨[mkUser p, mkCtx (serializeSearch sr), mkAssistant r], by simp⟩

/-- A call on which both external calls succeed. -/
def callOk (c : CallEnv × String) : Prop :=
  (∃ sr, vector_search c.1.provider c.1.db c.2 = Except.ok sr) ∧
    ∃ r, c.1.complete = Except.ok r

/-- The turn block a successful call appends. -/
def WfBlock (b : List Msg) : Prop :=
  ∃ p t r, b = [mkUser p, mkCtx t, mkAssistant r]

theorem runCalls_append_calls (xs ys : List (CallEnv × String)) (h : List Msg) :
    runCalls (xs ++ ys) h = runCalls ys (runCalls xs h) := by
  induction xs generalizing h with
  | nil => rfl
  | cons c rest ih =>
    obtain ⟨env, p⟩ := c
    simp only [List.cons_append, runCalls]
    exact ih _

theorem runCalls_prefix : ∀ (calls : List (CallEnv × String)) (h : List Msg),
    ∃ d, runCalls calls h = h ++ d
  | [], h => ⟨[], by simp [runCalls]⟩
  | (env, p) :: rest, h => by
    obtain ⟨d1, hd1⟩ := chatbot_hist_append env h p
    obtain ⟨d2, hd2⟩ := runCalls_prefix rest (chatbot env h p).1
    exact ⟨d1 ++ d2, by rw [runCalls, hd2, hd1, List.append_assoc]⟩

/-- A run of successful calls appends one well-formed three-turn block
per call. -/
theorem runCalls_shape : ∀ (calls : List (CallEnv × String)) (h : List Msg),
    (∀ c ∈ calls, callOk c) →
    ∃ blocks : List (List Msg), runCalls calls h = h ++ blocks.flatten ∧
      blocks.length = calls.length ∧ ∀ b ∈ blocks, WfBlock b
  | [], h, _ => ⟨[], by simp [runCalls], rfl, by intro b hb; cases hb⟩
  | (env, p) :: rest, h, hok => by
    obtain ⟨⟨sr, hsr⟩, ⟨r, hr⟩⟩ := hok (env, p) (List.mem_cons_self _ _)
    obtain ⟨blocks, hrun, hlen, hwf⟩ :=
      runCalls_shape rest (chatbot env h p).1
        (fun c hc => hok c (List.mem_cons_of_mem _ hc))
    refine ⟨[mkUser p, mkCtx (serializeSearch sr), mkAssistant r] :: blocks, ?_, ?_, ?_⟩
    · rw [runCalls, hrun, chatbot_ok h hsr hr]
      simp
    · simp [hlen]
    · intro b hb
      rcases List.mem_cons.mp hb with h1 | h1
      · exact ⟨p, serializeSearch sr, r, h1⟩
      · exact hwf b h1

theorem flatten_wf_length : ∀ blocks : List (List Msg),
    (∀ b ∈ blocks, WfBlock b) → blocks.flatten.length = 3 * blocks.length
  | [], _ => rfl
  | b :: rest, hwf => by
    obtain ⟨p, t, r, hb⟩ := hwf b (List.mem_cons_self _ _)
    have ih := flatten_wf_length rest fun b2 hb2 => hwf b2 (List.mem_cons_of_mem _ hb2)
    rw [List.flatten_cons, List.length_append, ih, hb]
    simp
    ring

theorem role_user (p : String) : (mkUser p).role = "user" := rfl

theorem role_ctx (t : String) : (mkCtx t).role = "system" := rfl

theorem role_assistant (r : String) : (mkAssistant r).role = "assistant" := rfl

theorem all_ne_init_of_wf : ∀ blocks : List (List Msg),
    (∀ b ∈ blocks, WfBlock b) →
    (blocks.flatten.all fun x => !(x == systemInit)) = true
  | [], _ => rfl
  | b :: rest, hwf => by
    obtain ⟨p, t, r, hb⟩ := hwf b (List.mem_cons_self _ _)
    have ih := all_ne_init_of_wf rest fun b2 hb2 => hwf b2 (List.mem_cons_of_mem _ hb2)
    rw [List.flatten_cons, List.all_append, ih, hb]
    simp [mkUser_beq_init, mkCtx_beq_init, mkAssistant_beq_init]

theorem beginsOneSystem_shape (blocks : List (List Msg))
    (hwf : ∀ b ∈ blocks, WfBlock b) :
    beginsOneSystem (systemInit :: blocks.flatten) = true := by
  show (systemInit == systemInit && blocks.flatten.all fun x => !(x == systemInit)) = true
  rw [beq_self_eq_true, Bool.true_and]
  exact all_ne_init_of_wf blocks hwf

theorem uaRoles_init_cons (l : List Msg) : uaRoles (systemInit :: l) = uaRoles l := by
  unfold uaRoles
  rw [List.filter_cons,
    show (systemInit.role == "user" || systemInit.role == "assistant") = false from by decide]
  simp

theorem uaRoles_append (l1 l2 : List Msg) :
    uaRoles (l1 ++ l2) = uaRoles l1 ++ uaRoles l2 := by
  unfold uaRoles
  rw [List.filter_append, List.map_append]

theorem uaRoles_block (p t r : String) :
    uaRoles [mkUser p, mkCtx t, mkAssistant r] = ["user", "assistant"] := by
  simp +decide [uaRoles, List.filter_cons, role_user, role_ctx, role_assistant]

theorem altFrom_assistant_shape : ∀ blocks : List (List Msg),
    (∀ b ∈ blocks, WfBlock b) →
    altFrom "assistant" (uaRoles blocks.flatten) = true
  | [], _ => rfl
  | b :: rest, hwf => by
    obtain ⟨p, t, r, hb⟩ := hwf b (List.mem_cons_self _ _)
    have ih := altFrom_assistant_shape rest fun b2 hb2 => hwf b2 (List.mem_cons_of_mem _ hb2)
    rw [List.flatten_cons, uaRoles_append, hb, uaRoles_block]
    simp only [List.cons_append, List.nil_append]
    simp +decide [altFrom, ih]

theorem alternatesUA_shape (blocks : List (List Msg))
    (hwf : ∀ b ∈ blocks, WfBlock b) :
    alternatesUA (systemInit :: blocks.flatten) = true := by
  unfold alternatesUA
  rw [uaRoles_init_cons]
  cases blocks with
  | nil => rfl
  | cons b rest =>
    obtain ⟨p, t, r, hb⟩ := hwf b (List.mem_cons_self _ _)
    have ih := altFrom_assistant_shape rest fun b2 hb2 => hwf b2 (List.mem_cons_of_mem _ hb2)
    rw [List.flatten_cons, uaRoles_append, hb, uaRoles_block]
    simp only [List.cons_append, List.nil_append]
    simp +decide [altFrom, ih]

theorem ctxPlacedFrom_shape : ∀ blocks : List (List Msg),
    (∀ b ∈ blocks, WfBlock b) →
    ∀ prev : Msg, ctxPlacedFrom prev blocks.flatten = true
  | [], _, _ => rfl
  | b :: rest, hwf, prev => by
    obtain ⟨p, t, r, hb⟩ := hwf b (List.mem_cons_self _ _)
    have ih := ctxPlacedFrom_shape rest
      (fun b2 hb2 => hwf b2 (List.mem_cons_of_mem _ hb2)) (mkAssistant r)
    rw [List.flatten_cons, hb]
    simp only [List.cons_append]
    simp +decide [ctxPlacedFrom, isCtxTurn_user, isCtxTurn_ctx, isCtxTurn_assistant,
      role_user, role_assistant, ih]

theorem ctxPlaced_shape (blocks : List (List Msg))
    (hwf : ∀ b ∈ blocks, WfBlock b) :
    ctxPlaced (systemInit :: blocks.flatten) = true := by
  show (!(isCtxTurn systemInit) && ctxPlacedFrom systemInit blocks.flatten) = true
  rw [isCtxTurn_init, ctxPlacedFrom_shape blocks hwf systemInit]
  rfl

/-! ## Sortedness of the modelled `$vectorSearch` stage -/

/-- Descending-score order on scored documents. -/
def descRel (a b : String × Int) : Prop := b.2 ≤ a.2

theorem mem_insertDesc {z x : String × Int} :
    ∀ l : List (String × Int), z ∈ insertDesc x l → z = x ∨ z ∈ l
  | [], h => Or.inl (by simpa [insertDesc] using h)
  | y :: ys, h => by
    unfold insertDesc at h
    by_cases hc : y.2 ≤ x.2
    · rw [if_pos hc] at h
      rcases List.mem_cons.mp h with h1 | h1
      · exact Or.inl h1
      · exact Or.inr h1
    · rw [if_neg hc] at h
      rcases List.mem_cons.mp h with h1 | h1
      · exact Or.inr (h1 ▸ List.mem_cons_self _ _)
      · rcases mem_insertDesc ys h1 with h2 | h2
        · exact Or.inl h2
        · exact Or.inr (List.mem_cons_of_mem _ h2)

theorem insertDesc_sorted {x : String × Int} :
    ∀ {l : List (String × Int)}, List.Sorted descRel l →
      List.Sorted descRel (insertDesc x l)
  | [], _ => by simp [insertDesc]
  | y :: ys, hs => by
    rw [List.sorted_cons] at hs
    obtain ⟨hy, hys⟩ := hs
    unfold insertDesc
    by_cases hc : y.2 ≤ x.2
    · rw [if_pos hc, List.sorted_cons]
      refine ⟨?_, List.sorted_cons.mpr ⟨hy, hys⟩⟩
      intro b hb
      rcases List.mem_cons.mp hb with h1 | h1
      · exact h1 ▸ hc
      · exact le_trans (hy b h1) hc
    · rw [if_neg hc, List.sorted_cons]
      refine ⟨?_, insertDesc_sorted hys⟩
      intro b hb
      rcases mem_insertDesc ys hb with h1 | h1
      · exact h1 ▸ le_of_lt (lt_of_not_le hc)
      · exact hy b h1

theorem sortDesc_sorted : ∀ l : List (String × Int), List.Sorted descRel (sortDesc l)
  | [] => List.sorted_nil
  | x :: xs => insertDesc_sorted (sortDesc_sorted xs)

theorem vectorSearchStage_sorted (scored : List (String × Int)) (nc k : Nat) :
    List.Sorted descRel (vectorSearchStage scored nc k) := by
  unfold vectorSearchStage
  exact List.Pairwise.sublist
    ((List.take_sublist _ _).trans (List.take_sublist _ _)) (sortDesc_sorted scored)

theorem vectorSearchStage_length (scored : List (String × Int)) (nc k : Nat) :
    (vectorSearchStage scored nc k).length ≤ k := by
  unfold vectorSearchStage
  rw [List.length_take]
  exact min_le_left _ _

/-! ## Lemmas about the tweet-insert loop -/

theorem countId_append (i : Int) (c1 c2 : List StoredDoc) :
    countId i (c1 ++ c2) = countId i c1 + countId i c2 := by
  simp [countId, List.filter_append]

theorem insertOne_ok {coll : List StoredDoc} {d : StoredDoc} {c2 : List StoredDoc}
    (h : insertOne coll d = Except.ok c2) :
    c2 = coll ++ [d] ∧ (coll.any fun x => x.tweet.id == d.tweet.id) = false := by
  unfold insertOne at h
  by_cases ha : (coll.any fun x => x.tweet.id == d.tweet.id) = true
  · rw [if_pos ha] at h; cases h
  · rw [if_neg ha] at h
    refine ⟨(Except.ok.inj h).symm, ?_⟩
    rwa [Bool.not_eq_true] at ha

theorem insertOne_error {coll : List StoredDoc} {d : StoredDoc} {e : String}
    (h : insertOne coll d = Except.error e) :
    (coll.any fun x => x.tweet.id == d.tweet.id) = true := by
  unfold insertOne at h
  by_cases ha : (coll.any fun x => x.tweet.id == d.tweet.id) = true
  · exact ha
  · rw [if_neg ha] at h; cases h

theorem countId_mono : ∀ (ds : List StoredDoc) (coll : List StoredDoc) (i : Int),
    countId i coll ≤ countId i (ingest coll ds)
  | [], _, _ => le_refl _
  | d :: ds, coll, i => by
    unfold ingest
    cases hins : insertOne coll d with
    | error e => exact countId_mono ds coll i
    | ok c2 =>
      obtain ⟨hc2, _⟩ := insertOne_ok hins
      have h1 : countId i coll ≤ countId i c2 := by
        rw [hc2, countId_append]; omega
      exact le_trans h1 (countId_mono ds c2 i)

theorem countId_le_one_ingest : ∀ (ds coll : List StoredDoc) (i : Int),
    countId i coll ≤ 1 → countId i (ingest coll ds) ≤ 1
  | [], _, _, h => h
  | d :: ds, coll, i, h => by
    unfold ingest
    cases hins : insertOne coll d with
    | error e => exact countId_le_one_ingest ds coll i h
    | ok c2 =>
      obtain ⟨hc2, hany⟩ := insertOne_ok hins
      refine countId_le_one_ingest ds c2 i ?_
      rw [hc2, countId_append]
      by_cases hd : d.tweet.id = i
      · have hnone : countId i coll = 0 := by
          have hall : ∀ x ∈ coll, (x.tweet.id == d.tweet.id) = false := by
            intro x hx
            by_contra hcon
            have hx2 : (x.tweet.id == d.tweet.id) = true := by
              cases hxx : (x.tweet.id == d.tweet.id) with
              | false => exact absurd hxx hcon
              | true => rfl
            exact absurd (List.any_eq_true.mpr ⟨x, hx, hx2⟩) (by rw [hany]; simp)
          have hfil : coll.filter (fun x => x.tweet.id == i) = [] := by
            rw [List.filter_eq_nil_iff]
            intro x hx
            have := hall x hx
            rw [hd] at this
            simp [this]
          simp [countId, hfil]
        have hone : countId i [d] = 1 := by simp [countId, hd]
        omega
      · have hzero : countId i [d] = 0 := by simp [countId, hd]
        omega

theorem countId_pos_ingest : ∀ (ds coll : List StoredDoc) (d : StoredDoc),
    d ∈ ds → 1 ≤ countId d.tweet.id (ingest coll ds)
  | d2 :: ds, coll, d, hmem => by
    unfold ingest
    rcases List.mem_cons.mp hmem with h1 | h1
    · subst h1
      cases hins : insertOne coll d with
      | error e =>
        obtain ⟨x, hx, hxe⟩ := List.any_eq_true.mp (insertOne_error hins)
        have hxc : 1 ≤ countId d.tweet.id coll := by
          have : x ∈ coll.filter fun y => y.tweet.id == d.tweet.id :=
            List.mem_filter.mpr ⟨hx, hxe⟩
          have hne : coll.filter (fun y => y.tweet.id == d.tweet.id) ≠ [] :=
            List.ne_nil_of_mem this
          have := List.length_pos.mpr hne
          simpa [countId] using this
        exact le_trans hxc (countId_mono ds coll d.tweet.id)
      | ok c2 =>
        obtain ⟨hc2, _⟩ := insertOne_ok hins
        have h1 : 1 ≤ countId d.tweet.id c2 := by
          rw [hc2, countId_append]
          have : countId d.tweet.id [d] = 1 := by simp [countId]
          omega
        exact le_trans h1 (countId_mono ds c2 d.tweet.id)
    · cases hins : insertOne coll d2 with
      | error e => exact countId_pos_ingest ds coll d h1
      | ok c2 => exact countId_pos_ingest ds c2 d h1

/-! ## Lemmas about the zip pairing and the backfill loop -/

theorem attemptedDocs_cons (u : TUser) (us : List TUser) (t : Tweet) (ts : List Tweet) :
    attemptedDocs (u :: us) (t :: ts) = mkDoc u t :: attemptedDocs us ts := by
  simp [attemptedDocs, List.zip_cons_cons]

theorem attemptedDocs_get :
    ∀ (users : List TUser) (tweets : List Tweet) (i : Nat) (u : TUser) (t : Tweet),
      users[i]? = some u → tweets[i]? = some t →
      (attemptedDocs users tweets)[i]? = some (mkDoc u t)
  | [], _, i, _, _, hu, _ => by simp at hu
  | _ :: _, [], i, _, _, _, ht => by simp at ht
  | u2 :: us, t2 :: ts, 0, u, t, hu, ht => by
    rw [List.getElem?_cons_zero] at hu ht
    rw [attemptedDocs_cons, List.getElem?_cons_zero, Option.some_inj.mp hu,
      Option.some_inj.mp ht]
  | u2 :: us, t2 :: ts, i + 1, u, t, hu, ht => by
    rw [List.getElem?_cons_succ] at hu ht
    rw [attemptedDocs_cons, List.getElem?_cons_succ]
    exact attemptedDocs_get us ts i u t hu ht

/-- The single-document update applied by the map form of the backfill. -/
def setEmbIf (i : Int) (v : Option Emb) (d : EDoc) : EDoc :=
  if d.id = i then { d with embedding := some v } else d

theorem setEmbIf_id (i : Int) (v : Option Emb) (d : EDoc) : (setEmbIf i v d).id = d.id := by
  unfold setEmbIf; split <;> rfl

theorem setEmbIf_text (i : Int) (v : Option Emb) (d : EDoc) :
    (setEmbIf i v d).text = d.text := by
  unfold setEmbIf; split <;> rfl

theorem map_setEmbIf_of_not_mem {i : Int} {v : Option Emb} :
    ∀ {l : List EDoc}, (∀ x ∈ l, x.id ≠ i) → l.map (setEmbIf i v) = l := by
  intro l h
  rw [List.map_congr_left fun x hx => ?_, List.map_id]
  exact if_neg (h x hx)

theorem upd_eq_map {i : Int} {v : Option Emb} :
    ∀ coll : List EDoc, (coll.map EDoc.id).Nodup →
      updateEmbedding i v coll = coll.map (setEmbIf i v)
  | [], _ => rfl
  | d :: ds, hnd => by
    rw [List.map_cons, List.nodup_cons] at hnd
    obtain ⟨hni, hnd2⟩ := hnd
    unfold updateEmbedding
    by_cases hd : d.id = i
    · rw [if_pos (by simpa using hd), List.map_cons]
      have hds : ds.map (setEmbIf i v) = ds := by
        refine map_setEmbIf_of_not_mem fun x hx hxi => ?_
        exact hni (by rw [hd, ← hxi]; exact List.mem_map_of_mem EDoc.id hx)
      rw [hds, show setEmbIf i v d = { d with embedding := some v } from if_pos hd]
    · rw [if_neg (by simpa using hd), List.map_cons,
        show setEmbIf i v d = d from if_neg hd, upd_eq_map ds hnd2]

/-- The backfill loop is, on a duplicate-free collection, the map that
replaces each document's embedding field by the embedding of its
sanitized text. -/
theorem backfill_map :
    ∀ (s coll : List EDoc) (provider : String → Except String Emb),
      (s.map EDoc.id).Nodup → (coll.map EDoc.id).Nodup →
      (∀ x ∈ s, ∀ y ∈ coll, y.id = x.id → y.text = x.text) →
      backfill provider s coll =
        coll.map fun d =>
          if d.id ∈ s.map EDoc.id then
            { d with embedding := some (get_embedding provider (clean_tweet d.text)) }
          else d
  | [], coll, provider, _, _, _ => by
    unfold backfill
    rw [List.map_congr_left fun d hd => ?_, List.map_id]
    simp
  | x :: xs, coll, provider, hs, hcoll, hagree => by
    unfold backfill
    set v := get_embedding provider (clean_tweet x.text) with hv
    rw [List.map_cons, List.nodup_cons] at hs
    obtain ⟨hxni, hxs⟩ := hs
    have hupd : updateEmbedding x.id v coll = coll.map (setEmbIf x.id v) :=
      upd_eq_map coll hcoll
    rw [hupd]
    have hids : ((coll.map (setEmbIf x.id v)).map EDoc.id).Nodup := by
      rw [List.map_map]
      have : (EDoc.id ∘ setEmbIf x.id v) = EDoc.id := funext fun d => setEmbIf_id x.id v d
      rw [this]
      exact hcoll
    have hagree2 : ∀ x2 ∈ xs, ∀ y ∈ coll.map (setEmbIf x.id v),
        y.id = x2.id → y.text = x2.text := by
      intro x2 hx2 y hy hid
      obtain ⟨y0, hy0, hy0e⟩ := List.mem_map.mp hy
      rw [← hy0e, setEmbIf_text]
      rw [← hy0e, setEmbIf_id] at hid
      exact hagree x2 (List.mem_cons_of_mem _ hx2) y0 hy0 hid
    rw [backfill_map xs (coll.map (setEmbIf x.id v)) provider hxs hids hagree2,
      List.map_map]
    refine List.map_congr_left fun d hd => ?_
    show (if (setEmbIf x.id v d).id ∈ xs.map EDoc.id then _ else _) = _
    by_cases h1 : d.id = x.id
    · have hset : setEmbIf x.id v d = { d with embedding := some v } := if_pos h1
      rw [hset]
      have hnotxs : d.id ∉ xs.map EDoc.id := by rw [h1]; exact hxni
      rw [if_neg (by simpa using hnotxs)]
      have hmem : d.id ∈ (x :: xs).map EDoc.id := by rw [h1]; simp
      rw [if_pos hmem]
      have htext : d.text = x.text :=
        hagree x (List.mem_cons_self _ _) d hd h1
      rw [hv, htext]
    · have hset : setEmbIf x.id v d = d := if_neg h1
      rw [hset]
      by_cases h2 : d.id ∈ xs.map EDoc.id
      · rw [if_pos h2, if_pos (by rw [List.map_cons]; exact List.mem_cons_of_mem _ h2)]
      · rw [if_neg h2, if_neg ?_]
        intro hmem
        rw [List.map_cons] at hmem
        rcases List.mem_cons.mp hmem with he | he
        · exact h1 he
        · exact h2 he

/-! ## Fuel evaluator for `cleanAux` (kernel-computable form) -/

/-- Structurally recursive evaluator for the `re.sub` scan; with fuel at
least the input length it coincides with `cleanAux`. -/
def cleanFuel : Nat → List Char → List Char
  | 0, l => l
  | _ + 1, [] => []
  | fuel + 1, c :: rest =>
    match matchUrlAt (c :: rest) with
    | some rem => cleanFuel fuel rem
    | none => c :: cleanFuel fuel rest

theorem cleanFuel_eq_cleanAux :
    ∀ (fuel : Nat) (l : List Char), l.length ≤ fuel → cleanFuel fuel l = cleanAux l
  | 0, l, h => by
    have : l = [] := List.length_eq_zero.mp (Nat.le_zero.mp h)
    rw [this, cleanAux_nil]; rfl
  | fuel + 1, [], _ => by rw [cleanAux_nil]; rfl
  | fuel + 1, c :: rest, h => by
    show (match matchUrlAt (c :: rest) with
      | some rem => cleanFuel fuel rem
      | none => c :: cleanFuel fuel rest) = cleanAux (c :: rest)
    cases hm : matchUrlAt (c :: rest) with
    | some rem =>
      rw [cleanAux_cons_some hm]
      refine cleanFuel_eq_cleanAux fuel rem ?_
      have := matchUrlAt_length hm
      simp only [List.length_cons] at this h
      omega
    | none =>
      rw [cleanAux_cons_none hm]
      refine congrArg (c :: ·) (cleanFuel_eq_cleanAux fuel rest ?_)
      simp only [List.length_cons] at h
      omega

/-- Kernel-computable form of `clean_tweet`. -/
theorem clean_tweet_eval (s : String) :
    clean_tweet s = String.mk (cleanFuel s.data.length s.data) := by
  rw [clean_tweet, cleanFuel_eq_cleanAux s.data.length s.data (le_refl _)]

/-! ## Claim theorems -/

/-- C5: for all input text, `clean_tweet` returns the input with exactly
the URL-shaped substrings matched by `url_pattern` removed and no other
characters altered: the input splits into alternating non-URL gaps and
URL-shaped matches and the output is the concatenation of the gaps in
order; no URL-shaped substring — in particular none of the removed ones —
occurs in the output; and on input with no URL match the function is the
identity. -/
theorem C5_clean_tweet_removes_urls (s : String) :
    (∃ gaps urls, gaps.length = urls.length + 1 ∧
      s.data = interleave gaps urls ∧
      (clean_tweet s).data = gaps.flatten ∧
      (∀ u ∈ urls, IsUrlShaped u) ∧
      (∀ u ∈ urls, ∀ xs ys : List Char, (clean_tweet s).data ≠ xs ++ (u ++ ys))) ∧
    noUrlIn (clean_tweet s).data = true ∧
    (noUrlIn s.data = true → clean_tweet s = s) := by
  have hdata : (clean_tweet s).data = cleanAux s.data := rfl
  refine ⟨?_, ?_, ?_⟩
  · obtain ⟨gaps, urls, hlen, hint, hout, hsh⟩ := cleanAux_decomp s.data
    refine ⟨gaps, urls, hlen, hint, by rw [hdata, hout], hsh, ?_⟩
    intro u hu xs ys heq
    obtain ⟨scheme, c, run, hsch, hue, hc, _⟩ := hsh u hu
    have hsome : (matchUrlAt (u ++ ys)).isSome = true := by
      rw [hue, show (scheme ++ c :: run) ++ ys = scheme ++ c :: (run ++ ys) from by simp]
      exact matchUrlAt_isSome_of _ hsch hc
    have hnone := cleanAux_noUrl s.data xs (u ++ ys) (by rw [← hdata]; exact heq)
    rw [hnone] at hsome
    cases hsome
  · rw [hdata, noUrlIn_iff]
    exact fun xs ys h => cleanAux_noUrl s.data xs ys h
  · intro h
    have hid := cleanAux_id s.data ((noUrlIn_iff s.data).mp h)
    show String.mk (cleanAux s.data) = s
    rw [hid]

theorem C5_witness :
    clean_tweet "see https://example.com/x now" = "see  now" ∧
    noUrlIn (clean_tweet "see https://example.com/x now").data = true ∧
    clean_tweet "hello world" = "hello world" := by
  refine ⟨?_, (C5_clean_tweet_removes_urls "see https://example.com/x now").2.1, ?_⟩
  · rw [clean_tweet_eval]; decide
  · exact (C5_clean_tweet_removes_urls "hello world").2.2 (by decide)

/-- C3: if the embedding provider fails on the query, `vector_search`
returns the embedding-error sentinel rather than raising: `get_embedding`
catches the exception (`none`), the operation short-circuits before the
database call (the result is identical for every `db` oracle), and the
returned value carries no result documents. -/
theorem C3_embedding_error_short_circuits
    (provider : String → Except String Emb)
    (db : Emb → Except String (List (String × Int))) (q e : String)
    (hfail : provider q = Except.error e) :
    vector_search provider db q = Except.ok (SearchRet.errMsg invalidQueryMsg) ∧
    get_embedding provider q = none ∧
    ∀ db2 : Emb → Except String (List (String × Int)),
      vector_search provider db2 q = vector_search provider db q := by
  have hge : get_embedding provider q = none := by
    unfold get_embedding; rw [hfail]
  refine ⟨?_, hge, ?_⟩
  · unfold vector_search; rw [hge]
  · intro db2
    show vector_search provider db2 q = vector_search provider db q
    unfold vector_search
    rw [hge]

theorem C3_witness :
    vector_search (fun _ => Except.error "network error") (fun _ => Except.ok []) "hi" =
      Except.ok (SearchRet.errMsg invalidQueryMsg) :=
  (C3_embedding_error_short_circuits (fun _ => Except.error "network error")
    (fun _ => Except.ok []) "hi" "network error" rfl).1

/-- C4: the retrieval pipeline returns at most `limit` (the spec's
`top_k`) results, in descending score order, and nothing at all for
`limit = 0`; `vector_search` instantiates the pipeline at the hard-coded
`numCandidates = 1000`, `limit = 10`, so a successful search returns at
most 10 projected documents. -/
theorem C4_topk_bound_sorted (scored : List (String × Int)) (nc k : Nat) :
    (vectorSearchStage scored nc k).length ≤ k ∧
    List.Sorted descRel (vectorSearchStage scored nc k) ∧
    vectorSearchStage scored nc 0 = [] ∧
    ∀ (provider : String → Except String Emb)
      (db : Emb → Except String (List (String × Int))) (q : String) (v : Emb),
      provider q = Except.ok v → db v = Except.ok scored →
      vector_search provider db q = Except.ok (SearchRet.docs
        (projectStage (vectorSearchStage scored numCandidatesConst limitConst))) ∧
      (projectStage (vectorSearchStage scored numCandidatesConst limitConst)).length ≤
        limitConst := by
  refine ⟨vectorSearchStage_length scored nc k, vectorSearchStage_sorted scored nc k,
    rfl, ?_⟩
  intro provider db q v hp hdb
  have hge : get_embedding provider q = some v := by
    unfold get_embedding; rw [hp]
  constructor
  · unfold vector_search
    rw [hge]
    dsimp only
    rw [hdb]
  · rw [projectStage, List.length_map]
    exact vectorSearchStage_length scored numCandidatesConst limitConst

theorem C4_witness :
    (vectorSearchStage [("a", 1), ("b", 5)] 1000 2).length ≤ 2 ∧
    vector_search (fun _ => Except.ok [1]) (fun _ => Except.ok [("a", 1), ("b", 5)]) "q" =
      Except.ok (SearchRet.docs (projectStage
        (vectorSearchStage [("a", 1), ("b", 5)] numCandidatesConst limitConst))) := by
  refine ⟨(C4_topk_bound_sorted [("a", 1), ("b", 5)] 1000 2).1, ?_⟩
  exact ((C4_topk_bound_sorted [("a", 1), ("b", 5)] numCandidatesConst limitConst).2.2.2
    (fun _ => Except.ok [1]) (fun _ => Except.ok [("a", 1), ("b", 5)]) "q" [1] rfl rfl).1

/-- C8: the sanitizer runs only at embedding time: the backfill loop
stores, for every document of a duplicate-free collection, the embedding
of `clean_tweet` of its text, while `vector_search` embeds the raw query
(its behavior depends only on the provider's value at the raw query
string); and `clean_tweet` is not a no-op on URL-bearing text, so the
asymmetry is observable. -/
theorem C8_sanitize_only_at_ingestion :
    (∀ (provider : String → Except String Emb) (coll : List EDoc),
      (coll.map EDoc.id).Nodup →
      backfill provider coll coll =
        coll.map fun d =>
          { d with embedding := some (get_embedding provider (clean_tweet d.text)) }) ∧
    (∀ (provider provider2 : String → Except String Emb)
      (db : Emb → Except String (List (String × Int))) (q : String),
      provider q = provider2 q →
      vector_search provider db q = vector_search provider2 db q) ∧
    clean_tweet "see https://example.com/x now" ≠ "see https://example.com/x now" := by
  refine ⟨?_, ?_, ?_⟩
  · intro provider coll hnd
    have hagree : ∀ x ∈ coll, ∀ y ∈ coll, y.id = x.id → y.text = x.text := by
      intro x hx y hy hid
      rw [List.inj_on_of_nodup_map hnd hy hx hid]
    rw [backfill_map coll coll provider hnd hnd hagree]
    refine List.map_congr_left fun d hd => ?_
    rw [if_pos (List.mem_map_of_mem EDoc.id hd)]
  · intro provider provider2 db q h
    show vector_search provider db q = vector_search provider2 db q
    unfold vector_search get_embedding
    rw [h]
  · rw [clean_tweet_eval]; decide

theorem C8_witness :
    backfill (fun _ => Except.ok ([] : Emb)) [⟨1, "tw", none⟩] [⟨1, "tw", none⟩] =
      ([⟨1, "tw", none⟩] : List EDoc).map (fun d =>
        { d with
          embedding := some (get_embedding (fun _ => Except.ok ([] : Emb)) (clean_tweet d.text)) }) ∧
    clean_tweet "see https://example.com/x now" ≠ "see https://example.com/x now" :=
  ⟨(C8_sanitize_only_at_ingestion).1 (fun _ => Except.ok ([] : Emb))
      [⟨1, "tw", none⟩] (by simp),
    (C8_sanitize_only_at_ingestion).2.2⟩

/-- A call environment whose three external calls all succeed. -/
def cEnvOK : CallEnv :=
  ⟨fun _ => Except.ok [1], fun _ => Except.ok [("t", 1)], Except.ok "re"⟩

/-- A call environment whose completion call fails. -/
def cEnvFail : CallEnv :=
  ⟨fun _ => Except.ok [1], fun _ => Except.ok [("t", 1)], Except.error "rate limit"⟩

/-- A call environment whose vector-index aggregate call raises. -/
def cEnvIndexDown : CallEnv :=
  ⟨fun _ => Except.ok [1], fun _ => Except.error "index unavailable", Except.ok "hello"⟩

/-- C1: starting from the seeded history, N successful `chatbot` calls
leave exactly `1 + 3N` turns (one user, one retrieved-context and one
assistant turn per call after the initial system turn); if on call N+1
retrieval succeeds but the completion API call fails, the history holds
exactly `1 + 3N + 2` turns: user and retrieved-context turns appended,
no assistant turn. -/
theorem C1_history_length (calls : List (CallEnv × String))
    (hok : ∀ c ∈ calls, callOk c) :
    (runCalls calls [systemInit]).length = 1 + 3 * calls.length ∧
    ∀ (env : CallEnv) (p : String) (sr : SearchRet) (e : String),
      vector_search env.provider env.db p = Except.ok sr →
      env.complete = Except.error e →
      (runCalls (calls ++ [(env, p)]) [systemInit]).length = 1 + 3 * calls.length + 2 := by
  obtain ⟨blocks, hrun, hlen, hwf⟩ := runCalls_shape calls [systemInit] hok
  have hN : (runCalls calls [systemInit]).length = 1 + 3 * calls.length := by
    rw [hrun, List.length_append, flatten_wf_length blocks hwf, hlen]
    simp
  refine ⟨hN, ?_⟩
  intro env p sr e hsr hcomp
  rw [runCalls_append_calls]
  show (runCalls [] (chatbot env (runCalls calls [systemInit]) p).1).length = _
  rw [show runCalls [] (chatbot env (runCalls calls [systemInit]) p).1 =
    (chatbot env (runCalls calls [systemInit]) p).1 from rfl]
  rw [chatbot_complete_fail _ hsr hcomp]
  rw [List.length_append, hN]
  rfl

theorem C1_witness :
    (runCalls [(cEnvOK, "hi")] [systemInit]).length = 1 + 3 * 1 ∧
    (runCalls ([(cEnvOK, "hi")] ++ [(cEnvFail, "again")]) [systemInit]).length =
      1 + 3 * 1 + 2 := by
  have hok : ∀ c ∈ [(cEnvOK, "hi")], callOk c := by
    intro c hc
    rw [List.mem_singleton.mp hc]
    exact ⟨⟨_, rfl⟩, ⟨"re", rfl⟩⟩
  have h := C1_history_length [(cEnvOK, "hi")] hok
  exact ⟨h.1, h.2 cEnvFail "again" _ "rate limit" rfl rfl⟩

/-- C2 (counterexample to the claim as stated): with the vector index
unavailable — the aggregate call raises — `chatbot` does not return a
reply at all: the exception propagates, and no retrieved-context turn is
appended (only the user turn remains). -/
theorem C2_counterexample :
    (chatbot cEnvIndexDown [systemInit] "What threats are trending?").2 =
      Except.error "index unavailable" ∧
    (chatbot cEnvIndexDown [systemInit] "What threats are trending?").1 =
      [systemInit, mkUser "What threats are trending?"] ∧
    ¬∃ r : String, (chatbot cEnvIndexDown [systemInit] "What threats are trending?").2 =
      Except.ok r := by
  refine ⟨rfl, rfl, ?_⟩
  rintro ⟨r, hr⟩
  have h1 : (chatbot cEnvIndexDown [systemInit] "What threats are trending?").2 =
      Except.error "index unavailable" := rfl
  rw [h1] at hr
  exact Except.noConfusion hr

/-- C2 (amended): only an embedding failure is degraded gracefully: if
the embedding call fails, `chatbot` still completes the turn, appending a
retrieved-context turn whose content carries the note
`"Invalid query or embedding generation failed."` and returning the
completion reply; if instead the index aggregate call raises, the
exception propagates and only the user turn is appended. -/
theorem C2_degraded_mode (env : CallEnv) (hist : List Msg) (q : String) :
    (∀ e r, env.provider q = Except.error e → env.complete = Except.ok r →
      chatbot env hist q =
        (hist ++ [mkUser q, mkCtx invalidQueryMsg, mkAssistant r], Except.ok r)) ∧
    (∀ v e, env.provider q = Except.ok v → env.db v = Except.error e →
      chatbot env hist q = (hist ++ [mkUser q], Except.error e)) := by
  constructor
  · intro e r he hr
    have hvs : vector_search env.provider env.db q =
        Except.ok (SearchRet.errMsg invalidQueryMsg) := by
      unfold vector_search get_embedding
      rw [he]
    show chatbot env hist q =
      (hist ++ [mkUser q, mkCtx (serializeSearch (SearchRet.errMsg invalidQueryMsg)),
        mkAssistant r], Except.ok r)
    exact chatbot_ok hist hvs hr
  · intro v e hv he
    have hvs : vector_search env.provider env.db q = Except.error e := by
      unfold vector_search get_embedding
      rw [hv]
      dsimp only
      rw [he]
    exact chatbot_search_fail hist hvs

theorem C2_witness :
    chatbot ⟨fun _ => Except.error "bad input", fun _ => Except.ok [], Except.ok "still"⟩
        [systemInit] "q" =
      ([systemInit] ++ [mkUser "q", mkCtx invalidQueryMsg, mkAssistant "still"],
        Except.ok "still") ∧
    chatbot cEnvIndexDown [systemInit] "q" =
      ([systemInit] ++ [mkUser "q"], Except.error "index unavailable") :=
  ⟨(C2_degraded_mode ⟨fun _ => Except.error "bad input", fun _ => Except.ok [],
      Except.ok "still"⟩ [systemInit] "q").1 "bad input" "still" rfl rfl,
    (C2_degraded_mode cEnvIndexDown [systemInit] "q").2 [1] "index unavailable" rfl rfl⟩

/-- The two-call sequence of the C6 counterexample: a completion failure
followed by a successful call. -/
def c6calls : List (CallEnv × String) := [(cEnvFail, "q1"), (cEnvOK, "q2")]

/-- C6 (counterexample to the claim as stated): failure states are
reachable, and after a completion failure the next successful call leaves
the reachable history `[system, user, ctx, user, ctx, assistant]`, in
which user/assistant turns do not alternate and the first
retrieved-context turn is not followed by an assistant turn. -/
theorem C6_counterexample :
    ¬(beginsOneSystem (runCalls c6calls [systemInit]) = true ∧
      alternatesUA (runCalls c6calls [systemInit]) = true ∧
      ctxPlaced (runCalls c6calls [systemInit]) = true) := by
  intro h
  have h2 : alternatesUA (runCalls c6calls [systemInit]) = false := rfl
  rw [h2] at h
  exact Bool.false_ne_true h.2.1

/-- C6 (amended): in every state reached from the seeded history by
calls that all succeed, the history begins with exactly one
system-instruction turn, user and assistant turns strictly alternate
starting with a user turn, and every retrieved-context turn sits
immediately after a user turn and immediately before its assistant turn;
and for arbitrary call sequences — failures included — turns are only
ever appended, never reordered or mutated. -/
theorem C6_history_invariant (calls : List (CallEnv × String)) :
    ((∀ c ∈ calls, callOk c) →
      beginsOneSystem (runCalls calls [systemInit]) = true ∧
      alternatesUA (runCalls calls [systemInit]) = true ∧
      ctxPlaced (runCalls calls [systemInit]) = true) ∧
    ∀ more : List (CallEnv × String), ∃ d,
      runCalls (calls ++ more) [systemInit] = runCalls calls [systemInit] ++ d := by
  constructor
  · intro hok
    obtain ⟨blocks, hrun, _, hwf⟩ := runCalls_shape calls [systemInit] hok
    rw [hrun, show [systemInit] ++ blocks.flatten = systemInit :: blocks.flatten from rfl]
    exact ⟨beginsOneSystem_shape blocks hwf, alternatesUA_shape blocks hwf,
      ctxPlaced_shape blocks hwf⟩
  · intro more
    rw [runCalls_append_calls]
    exact runCalls_prefix more _

theorem C6_witness :
    (beginsOneSystem (runCalls [(cEnvOK, "hi")] [systemInit]) = true ∧
      alternatesUA (runCalls [(cEnvOK, "hi")] [systemInit]) = true ∧
      ctxPlaced (runCalls [(cEnvOK, "hi")] [systemInit]) = true) ∧
    ∃ d, runCalls ([(cEnvOK, "hi")] ++ [(cEnvFail, "x")]) [systemInit] =
      runCalls [(cEnvOK, "hi")] [systemInit] ++ d := by
  have hok : ∀ c ∈ [(cEnvOK, "hi")], callOk c := by
    intro c hc
    rw [List.mem_singleton.mp hc]
    exact ⟨⟨_, rfl⟩, ⟨"re", rfl⟩⟩
  exact ⟨(C6_history_invariant [(cEnvOK, "hi")]).1 hok,
    (C6_history_invariant [(cEnvOK, "hi")]).2 [(cEnvFail, "x")]⟩

/-- C7: a CLI input line equal to `exit` or `quit` case-insensitively
ends the loop, printing the fixed goodbye line, without calling `chatbot`
(the history is untouched); any other line is forwarded to `chatbot`
verbatim and the reply printed prefixed `Chatbot: `; and `chatbot` gives
the sentinel words no special treatment — under equal oracle outcomes,
`"quit"` is processed exactly like any other prompt. -/
theorem C7_cli_sentinels (line : String) (env : CallEnv)
    (rest : List (String × CallEnv)) (hist : List Msg) :
    ((strLower line = "exit" ∨ strLower line = "quit") →
      runCLI ((line, env) :: rest) hist = ([goodbyeMsg], hist)) ∧
    (strLower line ≠ "exit" → strLower line ≠ "quit" →
      ∀ h2 reply, chatbot env hist line = (h2, Except.ok reply) →
        runCLI ((line, env) :: rest) hist =
          (("Chatbot: " ++ reply) :: (runCLI rest h2).1, (runCLI rest h2).2)) ∧
    ∀ (env2 : CallEnv) (hist2 : List Msg) (p : String) (sr : SearchRet) (r : String),
      vector_search env.provider env.db p = Except.ok sr →
      vector_search env2.provider env2.db "quit" = Except.ok sr →
      env.complete = Except.ok r → env2.complete = Except.ok r →
      chatbot env hist2 p =
        (hist2 ++ [mkUser p, mkCtx (serializeSearch sr), mkAssistant r], Except.ok r) ∧
      chatbot env2 hist2 "quit" =
        (hist2 ++ [mkUser "quit", mkCtx (serializeSearch sr), mkAssistant r],
          Except.ok r) := by
  refine ⟨?_, ?_, ?_⟩
  · intro hsent
    have hcond : (strLower line == "exit" || strLower line == "quit") = true := by
      rcases hsent with h | h <;> rw [h] <;> decide
    unfold runCLI
    rw [hcond]
    rfl
  · intro hne1 hne2 h2 reply hchat
    have hcond : (strLower line == "exit" || strLower line == "quit") = false := by
      rw [beq_eq_false_iff_ne.mpr hne1, beq_eq_false_iff_ne.mpr hne2]
      rfl
    show (if (strLower line == "exit" || strLower line == "quit") = true
        then ([goodbyeMsg], hist)
        else match chatbot env hist line with
          | (h3, Except.error _) => ([], h3)
          | (h3, Except.ok r2) =>
            let r := runCLI rest h3
            (("Chatbot: " ++ r2) :: r.1, r.2)) =
      (("Chatbot: " ++ reply) :: (runCLI rest h2).1, (runCLI rest h2).2)
    rw [hcond, hchat]
    simp
  · intro env2 hist2 p sr r hs1 hs2 hc1 hc2
    exact ⟨chatbot_ok hist2 hs1 hc1, chatbot_ok hist2 hs2 hc2⟩

theorem C7_witness :
    runCLI [("QUIT", cEnvOK)] [systemInit] = ([goodbyeMsg], [systemInit]) ∧
    runCLI [("hello", cEnvOK)] [systemInit] =
      (("Chatbot: " ++ "re") ::
          (runCLI [] ((chatbot cEnvOK [systemInit] "hello").1)).1,
        (runCLI [] ((chatbot cEnvOK [systemInit] "hello").1)).2) := by
  refine ⟨(C7_cli_sentinels "QUIT" cEnvOK [] [systemInit]).1 (Or.inr (by decide)), ?_⟩
  exact (C7_cli_sentinels "hello" cEnvOK [] [systemInit]).2.1 (by decide) (by decide)
    ((chatbot cEnvOK [systemInit] "hello").1) "re" rfl

/-- C9: ingestion is idempotent on `tweet.id` under the unique index: a
collection holding at most one document per id keeps that property
through any insert loop; if an id absent from the collection occurs among
the items (in particular when a document with the same `tweet.id` is
inserted twice), exactly one document with that id ends up stored; and a
duplicate-key insert is silently skipped, the loop continuing with the
remaining items rather than aborting. -/
theorem C9_ingest_idempotent (coll ds : List StoredDoc) (i : Int) :
    (countId i coll ≤ 1 → countId i (ingest coll ds) ≤ 1) ∧
    (countId i coll = 0 → (∃ d ∈ ds, d.tweet.id = i) →
      countId i (ingest coll ds) = 1) ∧
    ∀ (d : StoredDoc) (ds2 : List StoredDoc) (e : String),
      insertOne coll d = Except.error e → ingest coll (d :: ds2) = ingest coll ds2 := by
  refine ⟨countId_le_one_ingest ds coll i, ?_, ?_⟩
  · intro h0 hmem
    obtain ⟨d, hd, hdi⟩ := hmem
    have hle := countId_le_one_ingest ds coll i (by omega)
    have hge : 1 ≤ countId i (ingest coll ds) := hdi ▸ countId_pos_ingest ds coll d hd
    omega
  · intro d ds2 e he
    show (match insertOne coll d with
      | Except.ok c2 => ingest c2 ds2
      | Except.error _ => ingest coll ds2) = ingest coll ds2
    rw [he]

theorem C9_witness :
    countId 1 (ingest [] [⟨⟨1, "a"⟩, ⟨10, "u"⟩⟩, ⟨⟨1, "b"⟩, ⟨11, "v"⟩⟩]) = 1 ∧
    ingest [⟨⟨1, "a"⟩, ⟨10, "u"⟩⟩] [⟨⟨1, "b"⟩, ⟨11, "v"⟩⟩, ⟨⟨2, "c"⟩, ⟨12, "w"⟩⟩] =
      ingest [⟨⟨1, "a"⟩, ⟨10, "u"⟩⟩] [⟨⟨2, "c"⟩, ⟨12, "w"⟩⟩] := by
  constructor
  · exact (C9_ingest_idempotent [] [⟨⟨1, "a"⟩, ⟨10, "u"⟩⟩, ⟨⟨1, "b"⟩, ⟨11, "v"⟩⟩] 1).2.1
      rfl ⟨⟨⟨1, "a"⟩, ⟨10, "u"⟩⟩, by simp, rfl⟩
  · exact (C9_ingest_idempotent [⟨⟨1, "a"⟩, ⟨10, "u"⟩⟩] [] 1).2.2
      ⟨⟨1, "b"⟩, ⟨11, "v"⟩⟩ [⟨⟨2, "c"⟩, ⟨12, "w"⟩⟩] "duplicate key" rfl

/-- C10: each page's insert loop pairs users and tweets positionally via
`zip`: it attempts exactly `min users.length tweets.length` documents,
the i-th attempted document pairing the i-th included user with the i-th
tweet; when the response carries fewer (deduplicated) user objects than
tweets, the trailing tweets get no attempted document (silently dropped);
and the page loop is exactly the swallow-errors insert run over this
zipped list. -/
theorem C10_zip_pairing (users : List TUser) (tweets : List Tweet)
    (coll : List StoredDoc) :
    (attemptedDocs users tweets).length = min users.length tweets.length ∧
    (∀ (i : Nat) (u : TUser) (t : Tweet), users[i]? = some u → tweets[i]? = some t →
      (attemptedDocs users tweets)[i]? = some (mkDoc u t)) ∧
    (users.length < tweets.length →
      (attemptedDocs users tweets).length = users.length ∧
      ∀ i : Nat, users.length ≤ i → (attemptedDocs users tweets)[i]? = none) ∧
    ingestPage coll users tweets = ingest coll (attemptedDocs users tweets) := by
  have hlen : (attemptedDocs users tweets).length = min users.length tweets.length := by
    rw [attemptedDocs, List.length_map, List.length_zip]
  refine ⟨hlen, attemptedDocs_get users tweets, ?_, rfl⟩
  intro hlt
  refine ⟨by rw [hlen]; omega, ?_⟩
  intro i hi
  exact List.getElem?_eq_none (by rw [hlen]; omega)

theorem C10_witness :
    (attemptedDocs [⟨10, "u"⟩] [⟨1, "a"⟩, ⟨2, "b"⟩]).length = min 1 2 ∧
    (attemptedDocs [⟨10, "u"⟩] [⟨1, "a"⟩, ⟨2, "b"⟩])[0]? =
      some (mkDoc ⟨10, "u"⟩ ⟨1, "a"⟩) ∧
    (attemptedDocs [⟨10, "u"⟩] [⟨1, "a"⟩, ⟨2, "b"⟩])[1]? = none := by
  obtain ⟨h1, h2, h3, _⟩ := C10_zip_pairing [⟨10, "u"⟩] [⟨1, "a"⟩, ⟨2, "b"⟩] []
  exact ⟨h1, h2 0 ⟨10, "u"⟩ ⟨1, "a"⟩ rfl rfl, (h3 (by decide)).2 1 (by decide)⟩

end Rag
